import Mathlib

/-!
# Shallow embedding of `src/raffle.py` (hcauction)

This file embeds the allocation core of `raffle.py` — `distribute_items`,
its flat-category two-pass path, its subcategory path, and
`numeric_sort_key` — and proves the specification claims about it.

Modelling conventions:

* Python dicts become association lists; `winnings_tracker` (a dict of
  dicts) becomes flat `(bucket, member, count)` rows with first-match
  lookup and update-or-append increment, which matches dict semantics on
  duplicate-free rows.
* `random.choices(pop, weights)` draws with strictly positive weights
  (the weight formula `(1/(1+ln(1+n))) * boost` is positive for every
  count `n` and `boost ∈ {1, 1.5}`), so every candidate index is a
  possible outcome.  The random source is modelled as an oracle stream
  `rnd : List Nat`; each draw consumes one value `r` and selects index
  `r % pool.length`, which ranges over exactly the possible outcomes.
  Alongside, each draw records the tuple `(participant, ledger count,
  below-average flag)` for every candidate — precisely the inputs that
  determine that draw's weight vector — so that statements about the
  weights used at each draw can be made; `drawWeight` maps those inputs
  to the real-valued weight of the Python code.
* Python's float division in the average is modelled exactly over `ℚ`;
  `math.log` is modelled by `Real.log`.
-/

namespace Raffle

/-- The unclaimed sentinel used by `distribute_items`. -/
def fcfs : String := "First Come, First Serve"

/-! ## `numeric_sort_key` (raffle.py lines 220-223) -/

/-- Value of a decimal digit run, as `int()` reads it. -/
def digitsVal (ds : List Char) : Nat :=
  ds.foldl (fun acc c => acc * 10 + (c.toNat - '0'.toNat)) 0

/-- Leftmost match of the regex `#(\d+)`: the first `'#'` immediately
followed by at least one digit, taking the maximal digit run. -/
def findHashNum : List Char → Option Nat
  | [] => none
  | c :: rest =>
    if c = '#' then
      let ds := rest.takeWhile Char.isDigit
      if ds.isEmpty then findHashNum rest else some (digitsVal ds)
    else findHashNum rest

/-- `numeric_sort_key`: the integer after `"#"`, else `float('inf')`
(modelled as `⊤` in `WithTop Nat`). -/
def numeric_sort_key (item : String) : WithTop Nat :=
  match findHashNum item.data with
  | some n => (n : WithTop Nat)
  | none => ⊤

/-- `items.sort(key=numeric_sort_key)`: Python's stable sort by key. -/
def sortItems (l : List String) : List String :=
  l.mergeSort (fun a b => decide (numeric_sort_key a ≤ numeric_sort_key b))

/-- The label sequence `[f"{name} #{i+1}" for i in range(limit)]`. -/
def itemLabels (name : String) (limit : Nat) : List String :=
  (List.range limit).map (fun i => name ++ " #" ++ toString (i + 1))

/-! ## The winnings ledger (`winnings_tracker`) -/

/-- `winnings_tracker` as flat `(bucket, member, count)` rows. -/
abbrev Ledger := List (String × String × Nat)

/-- `winnings_tracker[b].get(m, 0)` — also the value read by
`winnings_tracker[b][m]` before an increment. -/
def ledgerGet : Ledger → String → String → Nat
  | [], _, _ => 0
  | (b', m', n) :: rest, b, m =>
    if b' = b ∧ m' = m then n else ledgerGet rest b m

/-- `winnings_tracker[b][m] += 1` (insert with count 1 when absent). -/
def ledgerBump : Ledger → String → String → Ledger
  | [], b, m => [(b, m, 1)]
  | (b', m', n) :: rest, b, m =>
    if b' = b ∧ m' = m then (b', m', n + 1) :: rest
    else (b', m', n) :: ledgerBump rest b m

/-- The counts stored under bucket `b` (the values of
`winnings_tracker[b]`). -/
def bucketCounts (L : Ledger) (b : String) : List Nat :=
  (L.filter (fun r => decide (r.1 = b))).map (fun r => r.2.2)

/-- `sum(winnings_tracker[b].values()) / len(winnings_tracker[b])`, or 0
when the bucket is empty; exact rational division. -/
def avgWinnings (L : Ledger) (b : String) : ℚ :=
  if (bucketCounts L b).length = 0 then 0
  else ((bucketCounts L b).sum : ℚ) / ((bucketCounts L b).length : ℚ)

/-! ## `participant_item_count` -/

abbrev ICount := List (String × Nat)

def icGet : ICount → String → Nat
  | [], _ => 0
  | (p', n) :: rest, p => if p' = p then n else icGet rest p

def icBump : ICount → String → ICount
  | [], p => [(p, 1)]
  | (p', n) :: rest, p =>
    if p' = p then (p', n + 1) :: rest else (p', n) :: icBump rest p

/-! ## Weight bookkeeping

At every weighted draw the code evaluates, for each candidate `p`,
`(1 / (1 + math.log(1 + tracker.get(p, 0)))) * (1.5 if tracker.get(p, 0) <
average else 1)`.  Each draw therefore uses, per candidate, exactly the
data `(ledger count, count < average)`.  The loops below record one
`WRow` per draw holding that data for each candidate in pool order. -/

/-- Weight inputs of one draw: `(participant, ledger count, below-average)`
for each candidate, in candidate order. -/
abbrev WRow := List (String × Nat × Bool)

/-- The real-valued weight the Python code computes from a candidate's
ledger count and below-average flag. -/
noncomputable def drawWeight (count : Nat) (boost : Bool) : ℝ :=
  (1 / (1 + Real.log (1 + count))) * (if boost then 3 / 2 else 1)

/-- The weight vector of a recorded draw. -/
noncomputable def rowWeights (row : WRow) : List ℝ :=
  row.map (fun t => drawWeight t.2.1 t.2.2)

/-! ## Flat-category path (raffle.py lines 89-146) -/

/-- First pass (lines 103-110): one item per eligible participant, in
order, while items remain.  Returns (new records, items left, ledger,
item counts). -/
def firstPass (cat : String) :
    List String → List String → Ledger → ICount →
    List (String × String) × List String × Ledger × ICount
  | [], items, L, ic => ([], items, L, ic)
  | _ :: _, [], L, ic =>
    -- `if items:` fails for every remaining participant
    ([], [], L, ic)
  | p :: ps, item :: rest, L, ic =>
    let r := firstPass cat ps rest (ledgerBump L cat p) (icBump ic p)
    ((item, p) :: r.1, r.2)

/-- Second pass loop (lines 122-142).  Each iteration records the weight
inputs, draws a winner (oracle index mod pool size), allocates the next
item, bumps ledger and item count, and removes the winner from the pool
once their item count reaches 2.  Returns (new records, items left,
ledger, item counts, remaining oracle, per-draw weight inputs). -/
def secondPass (cat : String) (avg : ℚ) :
    List String → List String → Ledger → ICount → List Nat →
    List (String × String) × List String × Ledger × ICount × List Nat × List WRow
  | [], _, L, ic, rnd => ([], [], L, ic, rnd, [])
  | item :: rest, pool, L, ic, rnd =>
    if pool = [] then ([], item :: rest, L, ic, rnd, [])
    else
      let row : WRow := pool.map (fun p =>
        (p, ledgerGet L cat p, decide ((ledgerGet L cat p : ℚ) < avg)))
      let idx := rnd.headD 0 % pool.length
      let winner := pool.getD idx ""
      let L' := ledgerBump L cat winner
      let ic' := icBump ic winner
      let pool' := if icGet ic' winner = 2 then pool.erase winner else pool
      let r := secondPass cat avg rest pool' L' ic' rnd.tail
      ((item, winner) :: r.1, r.2.1, r.2.2.1, r.2.2.2.1, r.2.2.2.2.1,
        row :: r.2.2.2.2.2)

/-- `first_pass_participants` (line 104): requesters with `max_items >= 1`. -/
def flatEligible (reqs : List (String × Nat)) : List String :=
  (reqs.filter (fun pq => decide (1 ≤ pq.2))).map Prod.fst

/-- `second_pass_participants` (lines 119-121): requesters with
`max_items == 2` and `participant_item_count < 2`. -/
def flatPool (reqs : List (String × Nat)) (ic : ICount) : List String :=
  (reqs.filter (fun pq =>
    decide (pq.2 = 2) && decide (icGet ic pq.1 < 2))).map Prod.fst

/-- One flat category (lines 89-146).  `reqs` is `category_participants`:
`(participant, requested quantity)` in participant order.  Returns
(records, ledger, item counts, remaining oracle, second-pass weight
inputs). -/
def flatCategory (cat : String) (limit : Nat) (reqs : List (String × Nat))
    (L : Ledger) (ic : ICount) (rnd : List Nat) :
    List (String × String) × Ledger × ICount × List Nat × List WRow :=
  let items := sortItems (itemLabels cat limit)
  if reqs = [] then
    (items.map (fun it => (it, fcfs)), L, ic, rnd, [])
  else
    let r1 := firstPass cat (flatEligible reqs) items L ic
    let avg := avgWinnings r1.2.2.1 cat
    let r2 := secondPass cat avg r1.2.1 (flatPool reqs r1.2.2.2) r1.2.2.1
      r1.2.2.2 rnd
    (r1.1 ++ r2.1 ++ r2.2.1.map (fun it => (it, fcfs)),
      r2.2.2.1, r2.2.2.2.1, r2.2.2.2.2.1, r2.2.2.2.2.2)

/-! ## Subcategory path (raffle.py lines 148-194) -/

/-- `len([item for item in choices if item == sub])`. -/
def countMatches (sub : String) (its : List String) : Nat :=
  (its.filter (fun x => decide (x = sub))).length

/-- Indices of `active_participants` inside `subcategory_participants`
(the entries with remaining allowance `> 0`). -/
def activeIdx (pool : List (String × Nat)) : List Nat :=
  (List.range pool.length).filter (fun i => decide (0 < (pool.getD i ("", 0)).2))

/-- Subcategory draw loop (lines 169-190): filter active candidates,
record weight inputs, draw a winner, allocate the next item, bump the
subcategory ledger, and decrement the winner's remaining allowance
in place. -/
def subPass (sub : String) (avg : ℚ) :
    List String → List (String × Nat) → Ledger → List Nat →
    List (String × String) × List String × Ledger × List Nat × List WRow
  | [], _, L, rnd => ([], [], L, rnd, [])
  | item :: rest, pool, L, rnd =>
    let act := activeIdx pool
    if act = [] then ([], item :: rest, L, rnd, [])
    else
      let row : WRow := act.map (fun i =>
        let p := (pool.getD i ("", 0)).1
        (p, ledgerGet L sub p, decide ((ledgerGet L sub p : ℚ) < avg)))
      let j := rnd.headD 0 % act.length
      let i := act.getD j 0
      let winner := (pool.getD i ("", 0)).1
      let L' := ledgerBump L sub winner
      let pool' := pool.set i (winner, (pool.getD i ("", 0)).2 - 1)
      let r := subPass sub avg rest pool' L' rnd.tail
      ((item, winner) :: r.1, r.2.1, r.2.2.1, r.2.2.2.1, row :: r.2.2.2.2)

/-- `subcategory_participants` (lines 150-153): each participant keyed on
the parent category, with allowance `min(2, matching labels)`. -/
def subPool (sub : String) (reqs : List (String × List String)) :
    List (String × Nat) :=
  reqs.map (fun pr => (pr.1, min 2 (countMatches sub pr.2)))

/-- One subcategory (lines 149-194).  `reqs` holds, per participant with
the parent-category key, their requested item-label list; the allowance
is `min(2, matches)`.  Returns (records, ledger, remaining oracle,
per-draw weight inputs). -/
def subCategory (sub : String) (limit : Nat)
    (reqs : List (String × List String)) (L : Ledger) (rnd : List Nat) :
    List (String × String) × Ledger × List Nat × List WRow :=
  let items := sortItems (itemLabels sub limit)
  if reqs = [] then (items.map (fun it => (it, fcfs)), L, rnd, [])
  else
    let avg := avgWinnings L sub
    let r := subPass sub avg items (subPool sub reqs) L rnd
    (r.1 ++ r.2.1.map (fun it => (it, fcfs)), r.2.2.1, r.2.2.2.1, r.2.2.2.2)

/-! ## Top level: `distribute_items` over the category configuration -/

/-- A participant's stored value for one category: an integer request
(flat categories) or a list of requested item labels (subcategorized
categories), as built by `parse_participants`. -/
inductive Choice
  | num (n : Nat)
  | items (ls : List String)

/-- `participants_choices`: per participant (unique handles, insertion
order), their per-category choices. -/
abbrev Requests := List (String × List (String × Choice))

/-- The integer request stored for a flat category, when present. -/
def choiceNum : List (String × Choice) → String → Option Nat
  | [], _ => none
  | (c, Choice.num n) :: rest, cat => if c = cat then some n else choiceNum rest cat
  | (c, Choice.items _) :: rest, cat =>
    if c = cat then none else choiceNum rest cat

/-- The item-label list stored for a subcategorized category, when
present. -/
def choiceItems : List (String × Choice) → String → Option (List String)
  | [], _ => none
  | (c, Choice.items ls) :: rest, cat => if c = cat then some ls else choiceItems rest cat
  | (c, Choice.num _) :: rest, cat =>
    if c = cat then none else choiceItems rest cat

/-- One entry of `CATEGORY_LIMITS`: a flat capacity or subcategory
capacities. -/
inductive Limit
  | flat (n : Nat)
  | subs (ss : List (String × Nat))

abbrev Config := List (String × Limit)

/-- The concrete `CATEGORY_LIMITS` table of raffle.py. -/
def CATEGORY_LIMITS : Config :=
  [("Insignias [Red]", Limit.flat 28),
   ("Insignias [Yellow]", Limit.flat 28),
   ("Selection cards", Limit.subs
      [("Hero Selection card", 1), ("Relic Selection card", 1)]),
   ("Stones", Limit.subs
      [("T2 Stone", 4), ("T1 Stone", 3), ("Recast Stone", 4)])]

/-- `category_participants` for a flat category. -/
def flatReqs (parts : Requests) (cat : String) : List (String × Nat) :=
  parts.filterMap (fun pr => (choiceNum pr.2 cat).map (fun q => (pr.1, q)))

/-- `subcategory_participants`' raw data for a subcategorized category:
each participant holding the category key, with their item list. -/
def subReqs (parts : Requests) (cat : String) : List (String × List String) :=
  parts.filterMap (fun pr => (choiceItems pr.2 cat).map (fun ls => (pr.1, ls)))

/-- The inner `for subcategory, sub_limit in limit.items()` loop. -/
def runSubs (cat : String) :
    List (String × Nat) → Requests → Ledger → List Nat →
    List (String × String) × Ledger × List Nat
  | [], _, L, rnd => ([], L, rnd)
  | (sub, m) :: rest, parts, L, rnd =>
    let r := subCategory sub m (subReqs parts cat) L rnd
    let rr := runSubs cat rest parts r.2.1 r.2.2.1
    (r.1 ++ rr.1, rr.2)

/-- The `for category, limit in CATEGORY_LIMITS.items()` loop. -/
def runConfig :
    Config → Requests → Ledger → ICount → List Nat →
    List (String × String) × Ledger × ICount × List Nat
  | [], _, L, ic, rnd => ([], L, ic, rnd)
  | (cat, Limit.flat n) :: rest, parts, L, ic, rnd =>
    let r := flatCategory cat n (flatReqs parts cat) L ic rnd
    let rr := runConfig rest parts r.2.1 r.2.2.1 r.2.2.2.1
    (r.1 ++ rr.1, rr.2)
  | (cat, Limit.subs ss) :: rest, parts, L, ic, rnd =>
    let r := runSubs cat ss parts L rnd
    let rr := runConfig rest parts r.2.1 ic r.2.2
    (r.1 ++ rr.1, rr.2)

/-- `distribute_items`: allocate every configured bucket in declaration
order, returning the allocation list and the mutated ledger. -/
def distribute_items (config : Config) (parts : Requests) (L : Ledger)
    (rnd : List Nat) : List (String × String) × Ledger :=
  let r := runConfig config parts L [] rnd
  (r.1, r.2.1)

/-! ## Sorting lemmas for `numeric_sort_key` -/

/-- The comparator used by `sortItems`. -/
def keyLE (a b : String) : Bool :=
  decide (numeric_sort_key a ≤ numeric_sort_key b)

theorem keyLE_trans (a b c : String) : keyLE a b → keyLE b c → keyLE a c := by
  simp only [keyLE, decide_eq_true_eq]
  exact le_trans

theorem keyLE_total (a b : String) : keyLE a b || keyLE b a := by
  simp only [keyLE, Bool.or_eq_true, decide_eq_true_eq]
  exact le_total _ _

theorem sortItems_pairwise (l : List String) :
    (sortItems l).Pairwise (fun a b => numeric_sort_key a ≤ numeric_sort_key b) := by
  have h := @List.sorted_mergeSort String keyLE keyLE_trans keyLE_total l
  exact h.imp (fun hab => by simpa [keyLE] using hab)

theorem sortItems_perm (l : List String) : (sortItems l).Perm l :=
  List.mergeSort_perm l _

theorem sortItems_idem (l : List String) :
    sortItems (sortItems l) = sortItems l := by
  apply List.mergeSort_of_sorted
  exact (sortItems_pairwise l).imp (fun hab => by simpa [keyLE] using hab)

/-- C9: sorting item labels with `numeric_sort_key` orders them ascending
by the integer after `"#"`, places labels without a `#<digits>` marker
after all numbered labels, is idempotent, and is permutation-invariant
(for labels with pairwise distinct keys, any permutation sorts to the
same list; in general the outputs are permutations of each other). -/
theorem claim_C9 :
    (∀ l : List String, (sortItems l).Pairwise
        (fun a b => numeric_sort_key a ≤ numeric_sort_key b))
  ∧ (∀ (l pre post : List String) (x : String), sortItems l = pre ++ x :: post →
        numeric_sort_key x = ⊤ → ∀ y ∈ post, numeric_sort_key y = ⊤)
  ∧ (∀ l : List String, sortItems (sortItems l) = sortItems l)
  ∧ (∀ l₁ l₂ : List String, l₁.Perm l₂ →
        (sortItems l₁).Perm (sortItems l₂) ∧
        (l₁.Pairwise (fun a b => numeric_sort_key a ≠ numeric_sort_key b) →
          sortItems l₁ = sortItems l₂)) := by
  refine ⟨sortItems_pairwise, ?_, sortItems_idem, ?_⟩
  · intro l pre post x heq htop y hy
    have h := sortItems_pairwise l
    rw [heq] at h
    have h' := (List.pairwise_append.mp h).2.1
    have hxy := (List.pairwise_cons.mp h').1 y hy
    rw [htop] at hxy
    exact top_le_iff.mp hxy
  · intro l₁ l₂ hperm
    refine ⟨(sortItems_perm l₁).trans (hperm.trans (sortItems_perm l₂).symm), ?_⟩
    intro hne
    have p : (sortItems l₁).Perm (sortItems l₂) :=
      (sortItems_perm l₁).trans (hperm.trans (sortItems_perm l₂).symm)
    have hne₁ := (List.Perm.pairwise_iff (fun h => Ne.symm h) (sortItems_perm l₁)).mpr hne
    have hne₂ := (List.Perm.pairwise_iff (fun h => Ne.symm h) (sortItems_perm l₂)).mpr
      ((List.Perm.pairwise_iff (fun h => Ne.symm h) hperm).mp hne)
    have s₁ : (sortItems l₁).Pairwise
        (fun a b => numeric_sort_key a < numeric_sort_key b) :=
      ((sortItems_pairwise l₁).and hne₁).imp (fun h => lt_of_le_of_ne h.1 h.2)
    have s₂ : (sortItems l₂).Pairwise
        (fun a b => numeric_sort_key a < numeric_sort_key b) :=
      ((sortItems_pairwise l₂).and hne₂).imp (fun h => lt_of_le_of_ne h.1 h.2)
    haveI : IsAntisymm String
        (fun a b => numeric_sort_key a < numeric_sort_key b) :=
      ⟨fun _ _ h h' => absurd h' (not_lt.mpr (le_of_lt h))⟩
    exact List.eq_of_perm_of_sorted p s₁ s₂

unseal List.merge List.mergeSort in
/-- Witness for C9: concrete instances — an unnumbered label sorted
between a numbered one and another unnumbered one, and two permutations
of distinct-key labels sorting to the same list. -/
theorem claim_C9_witness :
    (∀ y ∈ (["c"] : List String), numeric_sort_key y = ⊤) ∧
    ((sortItems ["b #2", "a #1"]).Perm (sortItems ["a #1", "b #2"]) ∧
      (["b #2", "a #1"].Pairwise
          (fun a b => numeric_sort_key a ≠ numeric_sort_key b) →
        sortItems ["b #2", "a #1"] = sortItems ["a #1", "b #2"])) :=
  ⟨claim_C9.2.1 ["a", "b #1", "c"] ["b #1"] ["c"] "a" (by rfl) (by decide),
   claim_C9.2.2.2 ["b #2", "a #1"] ["a #1", "b #2"] (by decide)⟩

/-! ## Structural lemmas: item conservation and winner membership -/

/-- Number of records in `recs` won by `p`. -/
def winsFor (recs : List (String × String)) (p : String) : Nat :=
  recs.countP (fun r => decide (r.2 = p))

theorem winsFor_append (r₁ r₂ : List (String × String)) (p : String) :
    winsFor (r₁ ++ r₂) p = winsFor r₁ p + winsFor r₂ p :=
  List.countP_append _ _ _

theorem winsFor_cons (it w p : String) (recs : List (String × String)) :
    winsFor ((it, w) :: recs) p =
      winsFor recs p + (if w = p then 1 else 0) := by
  rw [winsFor, List.countP_cons, winsFor]
  by_cases h : w = p <;> simp [h]

theorem firstPass_eq_zip (cat : String) :
    ∀ (ps items : List String) (L : Ledger) (ic : ICount),
      (firstPass cat ps items L ic).1 = items.zip ps
  | [], items, L, ic => by cases items <;> simp [firstPass]
  | _ :: _, [], L, ic => by simp [firstPass]
  | p :: ps, item :: rest, L, ic => by
    simp [firstPass, firstPass_eq_zip cat ps rest]

theorem firstPass_items (cat : String) :
    ∀ (ps items : List String) (L : Ledger) (ic : ICount),
      (firstPass cat ps items L ic).1.map Prod.fst ++
        (firstPass cat ps items L ic).2.1 = items
  | [], items, L, ic => by simp [firstPass]
  | _ :: _, [], L, ic => by simp [firstPass]
  | p :: ps, item :: rest, L, ic => by
    simp [firstPass, firstPass_items cat ps rest]

theorem secondPass_items (cat : String) (avg : ℚ) :
    ∀ (items pool : List String) (L : Ledger) (ic : ICount) (rnd : List Nat),
      (secondPass cat avg items pool L ic rnd).1.map Prod.fst ++
        (secondPass cat avg items pool L ic rnd).2.1 = items
  | [], pool, L, ic, rnd => by simp [secondPass]
  | item :: rest, pool, L, ic, rnd => by
    by_cases hp : pool = []
    · simp [secondPass, hp]
    · simp only [secondPass, if_neg hp, List.map_cons, List.cons_append,
        List.cons.injEq, true_and]
      exact secondPass_items cat avg rest _ _ _ _

theorem subPass_items (sub : String) (avg : ℚ) :
    ∀ (items : List String) (pool : List (String × Nat)) (L : Ledger)
      (rnd : List Nat),
      (subPass sub avg items pool L rnd).1.map Prod.fst ++
        (subPass sub avg items pool L rnd).2.1 = items
  | [], pool, L, rnd => by simp [subPass]
  | item :: rest, pool, L, rnd => by
    by_cases ha : activeIdx pool = []
    · simp [subPass, ha]
    · simp only [subPass, if_neg ha, List.map_cons, List.cons_append,
        List.cons.injEq, true_and]
      exact subPass_items sub avg rest _ _ _

theorem map_fst_fcfs (l : List String) :
    (l.map (fun it => (it, fcfs))).map Prod.fst = l := by
  simp [Function.comp_def]

theorem flatCategory_items (cat : String) (limit : Nat)
    (reqs : List (String × Nat)) (L : Ledger) (ic : ICount) (rnd : List Nat) :
    (flatCategory cat limit reqs L ic rnd).1.map Prod.fst =
      sortItems (itemLabels cat limit) := by
  by_cases h : reqs = []
  · simp only [flatCategory, if_pos h, map_fst_fcfs]
  · simp only [flatCategory, if_neg h, List.map_append, map_fst_fcfs]
    rw [List.append_assoc, secondPass_items, firstPass_items]

theorem subCategory_items (sub : String) (limit : Nat)
    (reqs : List (String × List String)) (L : Ledger) (rnd : List Nat) :
    (subCategory sub limit reqs L rnd).1.map Prod.fst =
      sortItems (itemLabels sub limit) := by
  by_cases h : reqs = []
  · simp only [subCategory, if_pos h, map_fst_fcfs]
  · simp only [subCategory, if_neg h, List.map_append, map_fst_fcfs]
    rw [subPass_items]

/-! ## Ledger monotonicity -/

theorem ledgerGet_bump_le (b' m' b m : String) :
    ∀ L : Ledger, ledgerGet L b m ≤ ledgerGet (ledgerBump L b' m') b m := by
  intro L
  induction L with
  | nil => simp [ledgerGet, ledgerBump]
  | cons r rest ih =>
    obtain ⟨b1, m1, n⟩ := r
    by_cases hb : b1 = b' ∧ m1 = m'
    · simp only [ledgerBump, if_pos hb, ledgerGet]
      by_cases hg : b1 = b ∧ m1 = m
      · simp [if_pos hg]
      · simp [if_neg hg]
    · simp only [ledgerBump, if_neg hb, ledgerGet]
      by_cases hg : b1 = b ∧ m1 = m
      · simp [if_pos hg]
      · simpa [if_neg hg] using ih

theorem firstPass_ledger_le (cat : String) (b m : String) :
    ∀ (ps items : List String) (L : Ledger) (ic : ICount),
      ledgerGet L b m ≤ ledgerGet (firstPass cat ps items L ic).2.2.1 b m
  | [], items, L, ic => by simp [firstPass]
  | _ :: _, [], L, ic => by simp [firstPass]
  | p :: ps, item :: rest, L, ic =>
    le_trans (ledgerGet_bump_le cat p b m L)
      (firstPass_ledger_le cat b m ps rest (ledgerBump L cat p) (icBump ic p))

theorem secondPass_ledger_le (cat : String) (avg : ℚ) (b m : String) :
    ∀ (items pool : List String) (L : Ledger) (ic : ICount) (rnd : List Nat),
      ledgerGet L b m ≤ ledgerGet (secondPass cat avg items pool L ic rnd).2.2.1 b m
  | [], pool, L, ic, rnd => by simp [secondPass]
  | item :: rest, pool, L, ic, rnd => by
    by_cases hp : pool = []
    · simp [secondPass, hp]
    · simp only [secondPass, if_neg hp]
      exact le_trans (ledgerGet_bump_le cat _ b m L)
        (secondPass_ledger_le cat avg b m rest _ _ _ _)

theorem subPass_ledger_le (sub : String) (avg : ℚ) (b m : String) :
    ∀ (items : List String) (pool : List (String × Nat)) (L : Ledger)
      (rnd : List Nat),
      ledgerGet L b m ≤ ledgerGet (subPass sub avg items pool L rnd).2.2.1 b m
  | [], pool, L, rnd => by simp [subPass]
  | item :: rest, pool, L, rnd => by
    by_cases ha : activeIdx pool = []
    · simp [subPass, ha]
    · simp only [subPass, if_neg ha]
      exact le_trans (ledgerGet_bump_le sub _ b m L)
        (subPass_ledger_le sub avg b m rest _ _ _)

theorem flatCategory_ledger_le (cat : String) (limit : Nat)
    (reqs : List (String × Nat)) (L : Ledger) (ic : ICount) (rnd : List Nat)
    (b m : String) :
    ledgerGet L b m ≤ ledgerGet (flatCategory cat limit reqs L ic rnd).2.1 b m := by
  by_cases h : reqs = []
  · simp [flatCategory, h]
  · simp only [flatCategory, if_neg h]
    exact le_trans (firstPass_ledger_le cat b m _ _ L ic)
      (secondPass_ledger_le cat _ b m _ _ _ _ rnd)

theorem subCategory_ledger_le (sub : String) (limit : Nat)
    (reqs : List (String × List String)) (L : Ledger) (rnd : List Nat)
    (b m : String) :
    ledgerGet L b m ≤ ledgerGet (subCategory sub limit reqs L rnd).2.1 b m := by
  by_cases h : reqs = []
  · simp [subCategory, h]
  · simp only [subCategory, if_neg h]
    exact subPass_ledger_le sub _ b m _ _ L rnd

theorem runSubs_ledger_le (cat : String) (b m : String) :
    ∀ (ss : List (String × Nat)) (parts : Requests) (L : Ledger)
      (rnd : List Nat),
      ledgerGet L b m ≤ ledgerGet (runSubs cat ss parts L rnd).2.1 b m
  | [], parts, L, rnd => by simp [runSubs]
  | (sub, lim) :: rest, parts, L, rnd => by
    simp only [runSubs]
    exact le_trans (subCategory_ledger_le sub lim _ L rnd b m)
      (runSubs_ledger_le cat b m rest parts _ _)

theorem runConfig_ledger_le (b m : String) :
    ∀ (config : Config) (parts : Requests) (L : Ledger) (ic : ICount)
      (rnd : List Nat),
      ledgerGet L b m ≤ ledgerGet (runConfig config parts L ic rnd).2.1 b m
  | [], parts, L, ic, rnd => by simp [runConfig]
  | (cat, Limit.flat n) :: rest, parts, L, ic, rnd => by
    simp only [runConfig]
    exact le_trans (flatCategory_ledger_le cat n _ L ic rnd b m)
      (runConfig_ledger_le b m rest parts _ _ _)
  | (cat, Limit.subs ss) :: rest, parts, L, ic, rnd => by
    simp only [runConfig]
    exact le_trans (runSubs_ledger_le cat b m ss parts L rnd)
      (runConfig_ledger_le b m rest parts _ _ _)

/-! ## Winner membership -/

theorem getD_mod_mem {α : Type} (pool : List α) (d : α) (r : Nat)
    (h : pool ≠ []) : pool.getD (r % pool.length) d ∈ pool := by
  have hl : 0 < pool.length := List.length_pos.mpr h
  have hlt : r % pool.length < pool.length := Nat.mod_lt _ hl
  rw [List.getD_eq_getElem?_getD, List.getElem?_eq_getElem hlt]
  exact List.getElem_mem hlt

theorem secondPass_winners (cat : String) (avg : ℚ) :
    ∀ (items pool : List String) (L : Ledger) (ic : ICount) (rnd : List Nat),
      ∀ rec ∈ (secondPass cat avg items pool L ic rnd).1, rec.2 ∈ pool
  | [], pool, L, ic, rnd => by simp [secondPass]
  | item :: rest, pool, L, ic, rnd => by
    by_cases hp : pool = []
    · simp [secondPass, hp]
    · simp only [secondPass, if_neg hp, List.mem_cons]
      rintro rec (hr | hr)
      · subst hr
        exact getD_mod_mem pool "" _ hp
      · have hmem := secondPass_winners cat avg rest _ _ _ _ rec hr
        by_cases hw : icGet (icBump ic (pool.getD (rnd.headD 0 % pool.length) ""))
            (pool.getD (rnd.headD 0 % pool.length) "") = 2
        · rw [if_pos hw] at hmem
          exact List.erase_subset _ _ hmem
        · rwa [if_neg hw] at hmem

theorem set_fst_getD :
    ∀ (pool : List (String × Nat)) (i : Nat) (x : Nat),
      (pool.set i ((pool.getD i ("", 0)).1, x)).map Prod.fst = pool.map Prod.fst
  | [], i, x => by simp
  | q :: rest, 0, x => by simp [List.getD]
  | q :: rest, i + 1, x => by
    simp only [List.set_cons_succ, List.map_cons, List.cons.injEq, true_and]
    simpa [List.getD] using set_fst_getD rest i x

theorem subPass_winners (sub : String) (avg : ℚ) :
    ∀ (items : List String) (pool : List (String × Nat)) (L : Ledger)
      (rnd : List Nat),
      ∀ rec ∈ (subPass sub avg items pool L rnd).1, rec.2 ∈ pool.map Prod.fst
  | [], pool, L, rnd => by simp [subPass]
  | item :: rest, pool, L, rnd => by
    by_cases ha : activeIdx pool = []
    · simp [subPass, ha]
    · simp only [subPass, if_neg ha, List.mem_cons]
      have hi : (activeIdx pool).getD (rnd.headD 0 % (activeIdx pool).length) 0
          < pool.length := by
        have hmem := getD_mod_mem (activeIdx pool) 0 (rnd.headD 0) ha
        have := List.of_mem_filter hmem
        have hr : (activeIdx pool).getD (rnd.headD 0 % (activeIdx pool).length) 0
            ∈ List.range pool.length := List.mem_of_mem_filter hmem
        exact List.mem_range.mp hr
      rintro rec (hr | hr)
      · subst hr
        simp only []
        rw [List.getD_eq_getElem?_getD, List.getElem?_eq_getElem hi]
        exact List.mem_map_of_mem Prod.fst (List.getElem_mem hi)
      · have hmem := subPass_winners sub avg rest _ _ _ rec hr
        rwa [set_fst_getD] at hmem

/-! ## Pointwise get/bump lemmas -/

theorem icGet_bump_self (p : String) :
    ∀ ic : ICount, icGet (icBump ic p) p = icGet ic p + 1
  | [] => by simp [icGet, icBump]
  | (p', n) :: rest => by
    by_cases h : p' = p
    · simp [icBump, icGet, h]
    · simp [icBump, icGet, h, icGet_bump_self p rest]

theorem icGet_bump_ne (p q : String) (hpq : q ≠ p) :
    ∀ ic : ICount, icGet (icBump ic q) p = icGet ic p
  | [] => by simp [icGet, icBump, hpq]
  | (p', n) :: rest => by
    by_cases h : p' = q
    · subst h
      simp [icBump, icGet, hpq]
    · simp [icBump, icGet, h, icGet_bump_ne p q hpq rest]

theorem ledgerGet_bump_self (b m : String) :
    ∀ L : Ledger, ledgerGet (ledgerBump L b m) b m = ledgerGet L b m + 1
  | [] => by simp [ledgerGet, ledgerBump]
  | (b', m', n) :: rest => by
    by_cases h : b' = b ∧ m' = m
    · simp [ledgerBump, ledgerGet, h]
    · simp [ledgerBump, ledgerGet, h, ledgerGet_bump_self b m rest]

theorem ledgerGet_bump_ne (b m b' m' : String)
    (h : ¬(b' = b ∧ m' = m)) :
    ∀ L : Ledger, ledgerGet (ledgerBump L b' m') b m = ledgerGet L b m
  | [] => by simp [ledgerGet, ledgerBump, h]
  | (b1, m1, n) :: rest => by
    by_cases h1 : b1 = b' ∧ m1 = m'
    · have h2 : ¬(b1 = b ∧ m1 = m) := by
        rintro ⟨rfl, rfl⟩
        exact h ⟨h1.1.symm, h1.2.symm⟩
      simp [ledgerBump, ledgerGet, h1, h2, h]
    · simp only [ledgerBump, if_neg h1, ledgerGet]
      by_cases h2 : b1 = b ∧ m1 = m
      · simp [h2]
      · simp [h2, ledgerGet_bump_ne b m b' m' h rest]

/-- C8: the ledger is monotonically non-decreasing — for every (bucket,
participant) pair, the count after `distribute_items` returns is at least
the count before the run; no operation decreases or resets an entry. -/
theorem claim_C8 (config : Config) (parts : Requests) (L : Ledger)
    (rnd : List Nat) (b m : String) :
    ledgerGet L b m ≤ ledgerGet (distribute_items config parts L rnd).2 b m :=
  runConfig_ledger_le b m config parts L [] rnd

/-- C7: `distribute_items` is deterministic given its random source — the
same request set, initial ledger and draw outcomes yield the same
allocation list and final ledger. -/
theorem claim_C7 (config : Config) (p₁ p₂ : Requests) (L₁ L₂ : Ledger)
    (r₁ r₂ : List Nat) (hp : p₁ = p₂) (hL : L₁ = L₂) (hr : r₁ = r₂) :
    distribute_items config p₁ L₁ r₁ = distribute_items config p₂ L₂ r₂ := by
  subst hp
  subst hL
  subst hr
  rfl

/-- Witness for C7 at a concrete configuration and input. -/
theorem claim_C7_witness :
    distribute_items CATEGORY_LIMITS [("A", [("Stones", Choice.items ["T1 Stone"])])]
        [("T1 Stone", "A", 3)] [5, 7] =
      distribute_items CATEGORY_LIMITS [("A", [("Stones", Choice.items ["T1 Stone"])])]
        [("T1 Stone", "A", 3)] [5, 7] :=
  claim_C7 CATEGORY_LIMITS _ _ _ _ _ _ rfl rfl rfl

/-! ## Counting wins -/

theorem winsFor_fcfsMap (items : List String) (p : String) (hp : p ≠ fcfs) :
    winsFor (items.map (fun it => (it, fcfs))) p = 0 := by
  rw [winsFor, List.countP_eq_zero]
  intro rec hrec
  obtain ⟨it, _, rfl⟩ := List.mem_map.mp hrec
  simpa using fun h => hp h.symm

theorem winsFor_zip_le (p : String) :
    ∀ (items ps : List String), winsFor (items.zip ps) p ≤ ps.count p
  | items, [] => by simp [winsFor]
  | [], q :: qs => by simp [winsFor]
  | i :: is, q :: qs => by
    simp only [List.zip_cons_cons, winsFor, List.countP_cons, List.count_cons]
    refine Nat.add_le_add (winsFor_zip_le p is qs) ?_
    by_cases h : q = p <;> simp [h]

theorem winsFor_zip_eq (p : String) :
    ∀ (items ps : List String), ps.length ≤ items.length →
      winsFor (items.zip ps) p = ps.count p
  | items, [], _ => by simp [winsFor]
  | [], q :: qs, h => by simp at h
  | i :: is, q :: qs, h => by
    simp only [List.zip_cons_cons, winsFor, List.countP_cons, List.count_cons]
    rw [show (is.zip qs).countP (fun r => decide (r.2 = p)) = winsFor (is.zip qs) p
      from rfl, winsFor_zip_eq p is qs (by simpa using h)]
    by_cases h : q = p <;> simp [h]

/-! ## First-pass characterization -/

theorem firstPass_left_length (cat : String) :
    ∀ (ps items : List String) (L : Ledger) (ic : ICount),
      (firstPass cat ps items L ic).2.1 ≠ [] → ps.length ≤ items.length
  | [], items, L, ic, _ => by simp
  | _ :: _, [], L, ic, h => by simp [firstPass] at h
  | p :: ps, it :: rest, L, ic, h => by
    simp only [firstPass] at h
    simpa using firstPass_left_length cat ps rest _ _ h

theorem firstPass_ic_not_mem (cat p : String) :
    ∀ (ps items : List String) (L : Ledger) (ic : ICount), p ∉ ps →
      icGet (firstPass cat ps items L ic).2.2.2 p = icGet ic p
  | [], items, L, ic, _ => by simp [firstPass]
  | _ :: _, [], L, ic, _ => by simp [firstPass]
  | q :: ps, it :: rest, L, ic, h => by
    simp only [firstPass]
    rw [firstPass_ic_not_mem cat p ps rest _ _ (fun hm => h (List.mem_cons_of_mem q hm))]
    exact icGet_bump_ne p q (fun he => h (he ▸ List.mem_cons_self q ps)) ic

theorem firstPass_ledger_not_mem (cat p : String) :
    ∀ (ps items : List String) (L : Ledger) (ic : ICount), p ∉ ps →
      ledgerGet (firstPass cat ps items L ic).2.2.1 cat p = ledgerGet L cat p
  | [], items, L, ic, _ => by simp [firstPass]
  | _ :: _, [], L, ic, _ => by simp [firstPass]
  | q :: ps, it :: rest, L, ic, h => by
    simp only [firstPass]
    rw [firstPass_ledger_not_mem cat p ps rest _ _
      (fun hm => h (List.mem_cons_of_mem q hm))]
    exact ledgerGet_bump_ne cat p cat q
      (fun hc => h (hc.2 ▸ List.mem_cons_self q ps)) L

theorem firstPass_ic_of_le (cat p : String) :
    ∀ (ps items : List String) (L : Ledger) (ic : ICount),
      ps.Nodup → p ∈ ps → ps.length ≤ items.length →
      icGet (firstPass cat ps items L ic).2.2.2 p = icGet ic p + 1
  | [], items, L, ic, _, hmem, _ => absurd hmem (by simp)
  | _ :: _, [], L, ic, _, _, hlen => by simp at hlen
  | q :: ps, it :: rest, L, ic, hnd, hmem, hlen => by
    simp only [firstPass]
    rcases List.mem_cons.mp hmem with rfl | hmem'
    · rw [firstPass_ic_not_mem cat p ps rest _ _ ((List.nodup_cons.mp hnd).1)]
      exact icGet_bump_self p ic
    · have hne : q ≠ p := fun he => (List.nodup_cons.mp hnd).1 (he ▸ hmem')
      rw [firstPass_ic_of_le cat p ps rest _ _ ((List.nodup_cons.mp hnd).2)
        hmem' (by simpa using hlen)]
      rw [icGet_bump_ne p q hne ic]

theorem firstPass_ledger_of_le (cat p : String) :
    ∀ (ps items : List String) (L : Ledger) (ic : ICount),
      ps.Nodup → p ∈ ps → ps.length ≤ items.length →
      ledgerGet (firstPass cat ps items L ic).2.2.1 cat p =
        ledgerGet L cat p + 1
  | [], items, L, ic, _, hmem, _ => absurd hmem (by simp)
  | _ :: _, [], L, ic, _, _, hlen => by simp at hlen
  | q :: ps, it :: rest, L, ic, hnd, hmem, hlen => by
    simp only [firstPass]
    rcases List.mem_cons.mp hmem with rfl | hmem'
    · rw [firstPass_ledger_not_mem cat p ps rest _ _ ((List.nodup_cons.mp hnd).1)]
      exact ledgerGet_bump_self cat p L
    · have hne : q ≠ p := fun he => (List.nodup_cons.mp hnd).1 (he ▸ hmem')
      rw [firstPass_ledger_of_le cat p ps rest _ _ ((List.nodup_cons.mp hnd).2)
        hmem' (by simpa using hlen)]
      rw [ledgerGet_bump_ne cat p cat q (fun hc => hne hc.2) L]

/-! ## Claim C4: first-pass guarantee -/

unseal List.merge List.mergeSort in
/-- Counterexample to C4 as stated: with capacity 1 and two requesters
each asking for at least one item, participant "B" requested ≥ 1 yet
receives nothing in the run — the first pass stops handing out items the
moment the pool empties. -/
theorem claim_C4_cex :
    (("B", 1) ∈ ([("A", 1), ("B", 1)] : List (String × Nat))) ∧
    winsFor (flatCategory "C" 1 [("A", 1), ("B", 1)] [] [] []).1 "B" = 0 := by
  constructor
  · decide
  · decide

/-- Full characterization of one first pass when every eligible
participant can be served. -/
theorem firstPass_exact (cat : String) (ps items : List String)
    (L : Ledger) (ic : ICount) (p : String) (hnd : ps.Nodup) (hmem : p ∈ ps)
    (hlen : ps.length ≤ items.length) :
    (firstPass cat ps items L ic).1 = items.zip ps ∧
    winsFor (firstPass cat ps items L ic).1 p = 1 ∧
    ledgerGet (firstPass cat ps items L ic).2.2.1 cat p =
      ledgerGet L cat p + 1 := by
  refine ⟨firstPass_eq_zip cat ps items L ic, ?_,
    firstPass_ledger_of_le cat p ps items L ic hnd hmem hlen⟩
  rw [firstPass_eq_zip, winsFor_zip_eq p items ps hlen]
  have h1 : ps.count p ≤ 1 := List.nodup_iff_count_le_one.mp hnd p
  have h2 : 0 < ps.count p := List.count_pos_iff.mpr hmem
  omega

/-- C4 (amended): in the first pass, participants are served in order and
assignments pair the lowest-index remaining items with the participants
(`items.zip ps`); provided the number of eligible requesters does not
exceed the number of items, every participant who requested at least one
item receives exactly one item and their ledger count for the category
rises by exactly 1. -/
theorem claim_C4_amended (cat : String) (ps items : List String)
    (L : Ledger) (ic : ICount) (p : String) (hnd : ps.Nodup) (hmem : p ∈ ps)
    (hlen : ps.length ≤ items.length) :
    (firstPass cat ps items L ic).1 = items.zip ps ∧
    winsFor (firstPass cat ps items L ic).1 p = 1 ∧
    ledgerGet (firstPass cat ps items L ic).2.2.1 cat p =
      ledgerGet L cat p + 1 :=
  firstPass_exact cat ps items L ic p hnd hmem hlen

/-- Witness for C4 (amended) at a concrete first pass. -/
theorem claim_C4_amended_witness :
    (firstPass "C" ["A", "B"] ["C #1", "C #2", "C #3"] [] []).1 =
        ["C #1", "C #2", "C #3"].zip ["A", "B"] ∧
    winsFor (firstPass "C" ["A", "B"] ["C #1", "C #2", "C #3"] [] []).1 "A" = 1 ∧
    ledgerGet (firstPass "C" ["A", "B"] ["C #1", "C #2", "C #3"] [] []).2.2.1
        "C" "A" = ledgerGet [] "C" "A" + 1 :=
  claim_C4_amended "C" ["A", "B"] ["C #1", "C #2", "C #3"] [] [] "A"
    (by decide) (by decide) (by decide)

/-! ## Pool and eligibility facts -/

theorem sortItems_labels_length (cat : String) (n : Nat) :
    (sortItems (itemLabels cat n)).length = n := by
  rw [(sortItems_perm _).length_eq]
  simp [itemLabels]

theorem flatEligible_nodup (reqs : List (String × Nat))
    (hnd : (reqs.map Prod.fst).Nodup) : (flatEligible reqs).Nodup :=
  ((List.filter_sublist reqs).map Prod.fst).nodup hnd

theorem flatEligible_length_le (reqs : List (String × Nat)) :
    (flatEligible reqs).length ≤ reqs.length := by
  simpa [flatEligible] using (List.filter_sublist reqs).length_le

theorem flatPool_nodup (reqs : List (String × Nat)) (ic : ICount)
    (hnd : (reqs.map Prod.fst).Nodup) : (flatPool reqs ic).Nodup :=
  ((List.filter_sublist reqs).map Prod.fst).nodup hnd

theorem mem_flatPool (reqs : List (String × Nat)) (ic : ICount) (p : String) :
    p ∈ flatPool reqs ic ↔
      ∃ q, (p, q) ∈ reqs ∧ q = 2 ∧ icGet ic p < 2 := by
  simp only [flatPool, List.mem_map, List.mem_filter, Bool.and_eq_true,
    decide_eq_true_eq]
  constructor
  · rintro ⟨⟨p', q⟩, ⟨hmem, hq, hic⟩, rfl⟩
    exact ⟨q, hmem, hq, hic⟩
  · rintro ⟨q, hmem, hq, hic⟩
    exact ⟨(p, q), ⟨hmem, hq, hic⟩, rfl⟩

theorem mem_flatEligible (reqs : List (String × Nat)) (p : String) :
    p ∈ flatEligible reqs ↔ ∃ q, (p, q) ∈ reqs ∧ 1 ≤ q := by
  simp only [flatEligible, List.mem_map, List.mem_filter, decide_eq_true_eq]
  constructor
  · rintro ⟨⟨p', q⟩, ⟨hmem, hq⟩, rfl⟩
    exact ⟨q, hmem, hq⟩
  · rintro ⟨q, hmem, hq⟩
    exact ⟨(p, q), ⟨hmem, hq⟩, rfl⟩

/-- Keys appearing once determine their values in an association list. -/
theorem nodup_fst_eq :
    ∀ (reqs : List (String × Nat)), (reqs.map Prod.fst).Nodup →
      ∀ {p : String} {a b : Nat}, (p, a) ∈ reqs → (p, b) ∈ reqs → a = b
  | [], _, _, _, _, ha, _ => absurd ha (by simp)
  | (q, n) :: rest, hnd, p, a, b, ha, hb => by
    simp only [List.map_cons, List.nodup_cons] at hnd
    rcases List.mem_cons.mp ha with he | ha'
    · rcases List.mem_cons.mp hb with he' | hb'
      · rw [(Prod.mk.injEq _ _ _ _).mp he |>.2,
          (Prod.mk.injEq _ _ _ _).mp he' |>.2]
      · obtain ⟨rfl, rfl⟩ := Prod.mk.injEq _ _ _ _ |>.mp he
        exact absurd (List.mem_map_of_mem Prod.fst hb') hnd.1
    · rcases List.mem_cons.mp hb with he' | hb'
      · obtain ⟨rfl, rfl⟩ := Prod.mk.injEq _ _ _ _ |>.mp he'
        exact absurd (List.mem_map_of_mem Prod.fst ha') hnd.1
      · exact nodup_fst_eq rest hnd.2 ha' hb'

theorem secondPass_wins_zero (cat : String) (avg : ℚ) (items pool : List String)
    (L : Ledger) (ic : ICount) (rnd : List Nat) (p : String)
    (hp : p ∉ pool) :
    winsFor (secondPass cat avg items pool L ic rnd).1 p = 0 := by
  rw [winsFor, List.countP_eq_zero]
  intro rec hrec
  simp only [decide_eq_true_eq]
  intro he
  exact hp (he ▸ secondPass_winners cat avg items pool L ic rnd rec hrec)

/-- C10: a flat-category requester asking for 3 or more items receives
exactly one item in the run (when capacity covers the requesters): the
first pass serves them once, and the second-pass filter `max_items == 2`
excludes them. -/
theorem claim_C10 (cat : String) (limit : Nat) (reqs : List (String × Nat))
    (L : Ledger) (ic : ICount) (rnd : List Nat) (p : String) (q : Nat)
    (hnd : (reqs.map Prod.fst).Nodup) (hmem : (p, q) ∈ reqs) (hq : 3 ≤ q)
    (hlen : reqs.length ≤ limit) (hp : p ≠ fcfs) :
    winsFor (flatCategory cat limit reqs L ic rnd).1 p = 1 := by
  have hne : reqs ≠ [] := List.ne_nil_of_mem hmem
  simp only [flatCategory, if_neg hne]
  rw [winsFor_append, winsFor_append]
  have helig : p ∈ flatEligible reqs :=
    (mem_flatEligible reqs p).mpr ⟨q, hmem, by omega⟩
  have hlen' : (flatEligible reqs).length ≤
      (sortItems (itemLabels cat limit)).length := by
    rw [sortItems_labels_length]
    exact le_trans (flatEligible_length_le reqs) hlen
  have h1 := firstPass_exact cat (flatEligible reqs)
    (sortItems (itemLabels cat limit)) L ic p
    (flatEligible_nodup reqs hnd) helig hlen'
  have h2 : winsFor (secondPass cat
      (avgWinnings (firstPass cat (flatEligible reqs)
        (sortItems (itemLabels cat limit)) L ic).2.2.1 cat)
      (firstPass cat (flatEligible reqs)
        (sortItems (itemLabels cat limit)) L ic).2.1
      (flatPool reqs (firstPass cat (flatEligible reqs)
        (sortItems (itemLabels cat limit)) L ic).2.2.2)
      (firstPass cat (flatEligible reqs)
        (sortItems (itemLabels cat limit)) L ic).2.2.1
      (firstPass cat (flatEligible reqs)
        (sortItems (itemLabels cat limit)) L ic).2.2.2 rnd).1 p = 0 := by
    apply secondPass_wins_zero
    intro hpool
    obtain ⟨q', hmem', hq', _⟩ := (mem_flatPool _ _ _).mp hpool
    have := nodup_fst_eq reqs hnd hmem hmem'
    omega
  have h3 : winsFor ((secondPass cat
      (avgWinnings (firstPass cat (flatEligible reqs)
        (sortItems (itemLabels cat limit)) L ic).2.2.1 cat)
      (firstPass cat (flatEligible reqs)
        (sortItems (itemLabels cat limit)) L ic).2.1
      (flatPool reqs (firstPass cat (flatEligible reqs)
        (sortItems (itemLabels cat limit)) L ic).2.2.2)
      (firstPass cat (flatEligible reqs)
        (sortItems (itemLabels cat limit)) L ic).2.2.1
      (firstPass cat (flatEligible reqs)
        (sortItems (itemLabels cat limit)) L ic).2.2.2 rnd).2.1.map
        (fun it => (it, fcfs))) p = 0 := winsFor_fcfsMap _ _ hp
  rw [h1.2.1, h2, h3]

/-- Witness for C10: a concrete requester asking for 5 in a capacity-2
category wins exactly once. -/
theorem claim_C10_witness :
    winsFor (flatCategory "C" 2 [("A", 5), ("B", 1)] [] [] [0]).1 "A" = 1 :=
  claim_C10 "C" 2 [("A", 5), ("B", 1)] [] [] [0] "A" 5 (by decide)
    (by decide) (by decide) (by decide) (by decide)

/-! ## Claim C3: per-bucket cap of 2 -/

theorem secondPass_wins_le (cat : String) (avg : ℚ) :
    ∀ (items pool : List String) (L : Ledger) (ic : ICount) (rnd : List Nat)
      (p : String), pool.Nodup → (∀ q ∈ pool, icGet ic q = 1) →
      winsFor (secondPass cat avg items pool L ic rnd).1 p ≤
        (if p ∈ pool then 1 else 0)
  | [], pool, L, ic, rnd, p, _, _ => by simp [secondPass, winsFor]
  | item :: rest, pool, L, ic, rnd, p, hnd, hic => by
    by_cases hpl : pool = []
    · simp [secondPass, hpl, winsFor]
    · have hw : pool.getD (rnd.headD 0 % pool.length) "" ∈ pool :=
        getD_mod_mem pool "" _ hpl
      have hbump : icGet (icBump ic (pool.getD (rnd.headD 0 % pool.length) ""))
          (pool.getD (rnd.headD 0 % pool.length) "") = 2 := by
        rw [icGet_bump_self, hic _ hw]
      simp only [secondPass, if_neg hpl, hbump, if_pos]
      rw [show winsFor ((item, pool.getD (rnd.headD 0 % pool.length) "") ::
          (secondPass cat avg rest
            (pool.erase (pool.getD (rnd.headD 0 % pool.length) ""))
            (ledgerBump L cat (pool.getD (rnd.headD 0 % pool.length) ""))
            (icBump ic (pool.getD (rnd.headD 0 % pool.length) ""))
            rnd.tail).1) p =
          (if (pool.getD (rnd.headD 0 % pool.length) "") = p then 1 else 0) +
          winsFor (secondPass cat avg rest
            (pool.erase (pool.getD (rnd.headD 0 % pool.length) ""))
            (ledgerBump L cat (pool.getD (rnd.headD 0 % pool.length) ""))
            (icBump ic (pool.getD (rnd.headD 0 % pool.length) ""))
            rnd.tail).1 p from by
        rw [winsFor, List.countP_cons, winsFor]
        by_cases hqp : pool.getD (rnd.headD 0 % pool.length) "" = p <;>
          simp [hqp, Nat.add_comm]]
      have hrec := secondPass_wins_le cat avg rest
        (pool.erase (pool.getD (rnd.headD 0 % pool.length) ""))
        (ledgerBump L cat (pool.getD (rnd.headD 0 % pool.length) ""))
        (icBump ic (pool.getD (rnd.headD 0 % pool.length) ""))
        rnd.tail p (hnd.erase _)
        (fun q hq => by
          have hqw := (hnd.mem_erase_iff.mp hq).1
          rw [icGet_bump_ne q _ (fun he => hqw he.symm)]
          exact hic q (hnd.mem_erase_iff.mp hq).2)
      by_cases hpw : pool.getD (rnd.headD 0 % pool.length) "" = p
      · rw [if_pos hpw, if_pos (hpw ▸ hw)]
        have hnm : p ∉ pool.erase (pool.getD (rnd.headD 0 % pool.length) "") := by
          rw [← hpw]
          exact hnd.not_mem_erase
        rw [if_neg hnm] at hrec
        omega
      · rw [if_neg hpw]
        by_cases hp2 : p ∈ pool
        · have hp3 : p ∈ pool.erase (pool.getD (rnd.headD 0 % pool.length) "") :=
            hnd.mem_erase_iff.mpr ⟨fun he => hpw he.symm, hp2⟩
          rw [if_pos hp2]
          rw [if_pos hp3] at hrec
          omega
        · have hp3 : p ∉ pool.erase (pool.getD (rnd.headD 0 % pool.length) "") :=
            fun hq => hp2 (hnd.mem_erase_iff.mp hq).2
          rw [if_neg hp2]
          rw [if_neg hp3] at hrec
          omega

theorem flat_wins_le (cat : String) (limit : Nat) (reqs : List (String × Nat))
    (L : Ledger) (ic : ICount) (rnd : List Nat) (p : String)
    (hnd : (reqs.map Prod.fst).Nodup) (hp : p ≠ fcfs) :
    winsFor (flatCategory cat limit reqs L ic rnd).1 p ≤ 2 := by
  by_cases hne : reqs = []
  · simp [flatCategory, hne, winsFor_fcfsMap _ _ hp]
  · simp only [flatCategory, if_neg hne]
    rw [winsFor_append, winsFor_append]
    set items := sortItems (itemLabels cat limit) with hitems
    set r1 := firstPass cat (flatEligible reqs) items L ic with hr1
    set avg := avgWinnings r1.2.2.1 cat with havg
    set pool := flatPool reqs r1.2.2.2 with hpool
    set r2 := secondPass cat avg r1.2.1 pool r1.2.2.1 r1.2.2.2 rnd with hr2
    have h1 : winsFor r1.1 p ≤ 1 := by
      rw [hr1, firstPass_eq_zip]
      exact le_trans (winsFor_zip_le p _ _)
        (List.nodup_iff_count_le_one.mp (flatEligible_nodup reqs hnd) p)
    have h3 : winsFor (r2.2.1.map (fun it => (it, fcfs))) p = 0 :=
      winsFor_fcfsMap _ _ hp
    have h2 : winsFor r2.1 p ≤ 1 := by
      rcases hre : r1.2.1 with _ | ⟨it, its⟩
      · rw [hr2, hre]
        simp [secondPass, winsFor]
      · have hinv : ∀ q ∈ pool, icGet r1.2.2.2 q = 1 := by
          intro q hq
          rw [hpool] at hq
          obtain ⟨q2, hmemq, hq2, hlt⟩ := (mem_flatPool _ _ _).mp hq
          have helq : q ∈ flatEligible reqs :=
            (mem_flatEligible _ _).mpr ⟨q2, hmemq, by omega⟩
          have hlen : (flatEligible reqs).length ≤ items.length :=
            firstPass_left_length cat _ items L ic (by rw [← hr1, hre]; simp)
          have hic1 := firstPass_ic_of_le cat q (flatEligible reqs) items L ic
            (flatEligible_nodup reqs hnd) helq hlen
          rw [← hr1] at hic1
          omega
        have hb := secondPass_wins_le cat avg r1.2.1 pool r1.2.2.1 r1.2.2.2
          rnd p (hpool ▸ flatPool_nodup reqs r1.2.2.2 hnd) hinv
        rw [← hr2] at hb
        refine le_trans hb ?_
        by_cases hppool : p ∈ pool <;> simp [hppool]
    omega

/-! ## Subcategory cap -/

/-- Total remaining allowance held by entries of `pool` keyed `p`. -/
def allowSum (pool : List (String × Nat)) (p : String) : Nat :=
  ((pool.filter (fun q => decide (q.1 = p))).map (fun q => q.2)).sum

theorem allowSum_not_mem (p : String) :
    ∀ pool : List (String × Nat), p ∉ pool.map Prod.fst → allowSum pool p = 0
  | [], _ => rfl
  | q :: rest, h => by
    have hq : ¬(q.1 = p) := fun he =>
      h (by rw [List.map_cons, he]; exact List.mem_cons_self _ _)
    simp only [allowSum, List.filter_cons, decide_eq_true_eq]
    rw [if_neg hq]
    exact allowSum_not_mem p rest (fun hm => h (by simp at hm ⊢; exact Or.inr hm))

theorem allowSum_le_two (p : String) :
    ∀ pool : List (String × Nat), (pool.map Prod.fst).Nodup →
      (∀ q ∈ pool, q.2 ≤ 2) → allowSum pool p ≤ 2
  | [], _, _ => by simp [allowSum]
  | q :: rest, hnd, hle => by
    simp only [List.map_cons, List.nodup_cons] at hnd
    by_cases hq : q.1 = p
    · simp only [allowSum, List.filter_cons, decide_eq_true_eq, if_pos hq,
        List.map_cons, List.sum_cons]
      have h0 : allowSum rest p = 0 :=
        allowSum_not_mem p rest (fun hm => hnd.1 (hq ▸ hm))
      have := hle q (List.mem_cons_self q rest)
      simp only [allowSum] at h0
      omega
    · simp only [allowSum, List.filter_cons, decide_eq_true_eq, if_neg hq]
      exact allowSum_le_two p rest hnd.2
        (fun r hr => hle r (List.mem_cons_of_mem q hr))

theorem allowSum_set (p : String) :
    ∀ (pool : List (String × Nat)) (i : Nat), i < pool.length →
      0 < (pool.getD i ("", 0)).2 →
      allowSum (pool.set i ((pool.getD i ("", 0)).1,
          (pool.getD i ("", 0)).2 - 1)) p +
        (if (pool.getD i ("", 0)).1 = p then 1 else 0) ≤ allowSum pool p
  | [], i, h, _ => by simp at h
  | q :: rest, 0, _, hpos => by
    simp only [List.getD_cons_zero] at hpos ⊢
    by_cases hq : q.1 = p
    · simp only [List.set_cons_zero, allowSum, List.filter_cons,
        decide_eq_true_eq, if_pos hq, List.map_cons, List.sum_cons]
      omega
    · simp only [List.set_cons_zero, allowSum, List.filter_cons,
        decide_eq_true_eq, if_neg hq]
      omega
  | q :: rest, i + 1, h, hpos => by
    simp only [List.getD_cons_succ] at hpos ⊢
    have hrec := allowSum_set p rest i (by simpa using h) hpos
    by_cases hq : q.1 = p
    · simp only [List.set_cons_succ, allowSum, List.filter_cons,
        decide_eq_true_eq, if_pos hq, List.map_cons, List.sum_cons]
      simp only [allowSum] at hrec
      omega
    · simp only [List.set_cons_succ, allowSum, List.filter_cons,
        decide_eq_true_eq, if_neg hq]
      exact hrec

theorem mem_activeIdx (pool : List (String × Nat)) (i : Nat) :
    i ∈ activeIdx pool → i < pool.length ∧ 0 < (pool.getD i ("", 0)).2 := by
  intro h
  have h1 := List.mem_of_mem_filter h
  have h2 := List.of_mem_filter h
  exact ⟨List.mem_range.mp h1, by simpa using h2⟩

theorem subPass_wins_le (sub : String) (avg : ℚ) :
    ∀ (items : List String) (pool : List (String × Nat)) (L : Ledger)
      (rnd : List Nat) (p : String),
      winsFor (subPass sub avg items pool L rnd).1 p ≤ allowSum pool p
  | [], pool, L, rnd, p => by simp [subPass, winsFor]
  | item :: rest, pool, L, rnd, p => by
    by_cases ha : activeIdx pool = []
    · simp [subPass, ha, winsFor]
    · simp only [subPass, if_neg ha]
      have hi := mem_activeIdx pool _
        (getD_mod_mem (activeIdx pool) 0 (rnd.headD 0) ha)
      rw [winsFor_cons]
      have hrec := subPass_wins_le sub avg rest
        (pool.set ((activeIdx pool).getD (rnd.headD 0 % (activeIdx pool).length) 0)
          ((pool.getD ((activeIdx pool).getD
              (rnd.headD 0 % (activeIdx pool).length) 0) ("", 0)).1,
            (pool.getD ((activeIdx pool).getD
              (rnd.headD 0 % (activeIdx pool).length) 0) ("", 0)).2 - 1))
        (ledgerBump L sub (pool.getD ((activeIdx pool).getD
          (rnd.headD 0 % (activeIdx pool).length) 0) ("", 0)).1)
        rnd.tail p
      have hset := allowSum_set p pool
        ((activeIdx pool).getD (rnd.headD 0 % (activeIdx pool).length) 0)
        hi.1 hi.2
      by_cases hwp : (pool.getD ((activeIdx pool).getD
          (rnd.headD 0 % (activeIdx pool).length) 0) ("", 0)).1 = p
      · rw [if_pos hwp] at hset ⊢
        omega
      · rw [if_neg hwp] at hset ⊢
        omega

theorem subCategory_wins_le (sub : String) (limit : Nat)
    (reqs : List (String × List String)) (L : Ledger) (rnd : List Nat)
    (p : String) (hnd : (reqs.map Prod.fst).Nodup) (hp : p ≠ fcfs) :
    winsFor (subCategory sub limit reqs L rnd).1 p ≤ 2 := by
  by_cases hne : reqs = []
  · simp [subCategory, hne, winsFor_fcfsMap _ _ hp]
  · simp only [subCategory, if_neg hne]
    rw [winsFor_append]
    have h2 : winsFor ((subPass sub (avgWinnings L sub)
        (sortItems (itemLabels sub limit)) (subPool sub reqs) L rnd).2.1.map
          (fun it => (it, fcfs))) p = 0 := winsFor_fcfsMap _ _ hp
    have h1 := subPass_wins_le sub (avgWinnings L sub)
      (sortItems (itemLabels sub limit)) (subPool sub reqs) L rnd p
    have hcap : allowSum (subPool sub reqs) p ≤ 2 := by
      apply allowSum_le_two
      · simpa [subPool, List.map_map, Function.comp_def] using hnd
      · intro q hq
        obtain ⟨pr, _, rfl⟩ := List.mem_map.mp hq
        simp
    omega

/-- C3: in one run no participant wins more than 2 records of a single
flat category, nor more than 2 records of a single subcategory — for any
request set (handles unique, as Python dicts guarantee) and any request
quantities, including those above 2. -/
theorem claim_C3 :
    (∀ (cat : String) (limit : Nat) (reqs : List (String × Nat)) (L : Ledger)
        (ic : ICount) (rnd : List Nat) (p : String),
        (reqs.map Prod.fst).Nodup → p ≠ fcfs →
        winsFor (flatCategory cat limit reqs L ic rnd).1 p ≤ 2) ∧
    (∀ (sub : String) (limit : Nat) (reqs : List (String × List String))
        (L : Ledger) (rnd : List Nat) (p : String),
        (reqs.map Prod.fst).Nodup → p ≠ fcfs →
        winsFor (subCategory sub limit reqs L rnd).1 p ≤ 2) :=
  ⟨fun cat limit reqs L ic rnd p hnd hp =>
      flat_wins_le cat limit reqs L ic rnd p hnd hp,
    fun sub limit reqs L rnd p hnd hp =>
      subCategory_wins_le sub limit reqs L rnd p hnd hp⟩

/-- Witness for C3: concrete flat and subcategory runs with requests
above the cap. -/
theorem claim_C3_witness :
    winsFor (flatCategory "C" 3 [("A", 7), ("B", 2)] [] [] [0]).1 "A" ≤ 2 ∧
    winsFor (subCategory "S" 3 [("A", ["S", "S", "S"])] [] [0, 0, 0]).1 "A" ≤ 2 :=
  ⟨claim_C3.1 "C" 3 [("A", 7), ("B", 2)] [] [] [0] "A" (by decide) (by decide),
    claim_C3.2 "S" 3 [("A", ["S", "S", "S"])] [] [0, 0, 0] "A" (by decide)
      (by decide)⟩

/-! ## Claim C2: every bucket is covered exactly -/

theorem firstPass_rec_winners (cat : String) (ps items : List String)
    (L : Ledger) (ic : ICount) :
    ∀ rec ∈ (firstPass cat ps items L ic).1, rec.2 ∈ ps := by
  intro rec hrec
  rw [firstPass_eq_zip] at hrec
  obtain ⟨a, b⟩ := rec
  exact (List.of_mem_zip hrec).2

theorem flatEligible_sub (reqs : List (String × Nat)) :
    ∀ p ∈ flatEligible reqs, p ∈ reqs.map Prod.fst := by
  intro p hp
  obtain ⟨q, hq, _⟩ := (mem_flatEligible reqs p).mp hp
  exact List.mem_map.mpr ⟨(p, q), hq, rfl⟩

theorem flatPool_sub (reqs : List (String × Nat)) (ic : ICount) :
    ∀ p ∈ flatPool reqs ic, p ∈ reqs.map Prod.fst := by
  intro p hp
  obtain ⟨q, hq, _, _⟩ := (mem_flatPool reqs ic p).mp hp
  exact List.mem_map.mpr ⟨(p, q), hq, rfl⟩

theorem subPool_fst (sub : String) (reqs : List (String × List String)) :
    (subPool sub reqs).map Prod.fst = reqs.map Prod.fst := by
  simp [subPool, List.map_map, Function.comp_def]

theorem flatCategory_winners (cat : String) (limit : Nat)
    (reqs : List (String × Nat)) (L : Ledger) (ic : ICount) (rnd : List Nat) :
    ∀ rec ∈ (flatCategory cat limit reqs L ic rnd).1,
      rec.2 = fcfs ∨ rec.2 ∈ reqs.map Prod.fst := by
  by_cases h : reqs = []
  · simp only [flatCategory, if_pos h]
    intro rec hrec
    obtain ⟨it, _, rfl⟩ := List.mem_map.mp hrec
    exact Or.inl rfl
  · simp only [flatCategory, if_neg h]
    intro rec hrec
    rcases List.mem_append.mp hrec with h12 | h3
    · rcases List.mem_append.mp h12 with h1 | h2
      · exact Or.inr (flatEligible_sub reqs _
          (firstPass_rec_winners cat _ _ L ic rec h1))
      · exact Or.inr (flatPool_sub reqs _ _
          (secondPass_winners cat _ _ _ _ _ rnd rec h2))
    · obtain ⟨it, _, rfl⟩ := List.mem_map.mp h3
      exact Or.inl rfl

theorem subCategory_winners (sub : String) (limit : Nat)
    (reqs : List (String × List String)) (L : Ledger) (rnd : List Nat) :
    ∀ rec ∈ (subCategory sub limit reqs L rnd).1,
      rec.2 = fcfs ∨ rec.2 ∈ reqs.map Prod.fst := by
  by_cases h : reqs = []
  · simp only [subCategory, if_pos h]
    intro rec hrec
    obtain ⟨it, _, rfl⟩ := List.mem_map.mp hrec
    exact Or.inl rfl
  · simp only [subCategory, if_neg h]
    intro rec hrec
    rcases List.mem_append.mp hrec with h1 | h2
    · have := subPass_winners sub _ _ (subPool sub reqs) L rnd rec h1
      rw [subPool_fst] at this
      exact Or.inr this
    · obtain ⟨it, _, rfl⟩ := List.mem_map.mp h2
      exact Or.inl rfl

theorem flatReqs_fst_sub (parts : Requests) (cat : String) :
    ∀ p ∈ (flatReqs parts cat).map Prod.fst, p ∈ parts.map Prod.fst := by
  intro p hp
  obtain ⟨pq, hpq, rfl⟩ := List.mem_map.mp hp
  obtain ⟨pr, hpr, hh⟩ := List.mem_filterMap.mp hpq
  obtain ⟨q, _, hq2⟩ := Option.map_eq_some'.mp hh
  exact List.mem_map.mpr ⟨pr, hpr, by rw [← hq2]⟩

theorem subReqs_fst_sub (parts : Requests) (cat : String) :
    ∀ p ∈ (subReqs parts cat).map Prod.fst, p ∈ parts.map Prod.fst := by
  intro p hp
  obtain ⟨pq, hpq, rfl⟩ := List.mem_map.mp hp
  obtain ⟨pr, hpr, hh⟩ := List.mem_filterMap.mp hpq
  obtain ⟨q, _, hq2⟩ := Option.map_eq_some'.mp hh
  exact List.mem_map.mpr ⟨pr, hpr, by rw [← hq2]⟩

/-- Sorted label block of one configured bucket list entry. -/
def bucketLabels : String × Limit → List String
  | (cat, Limit.flat n) => sortItems (itemLabels cat n)
  | (_, Limit.subs ss) => ss.flatMap (fun sm => sortItems (itemLabels sm.1 sm.2))

/-- All item labels of the configuration, in declaration order. -/
def allLabels (config : Config) : List String :=
  config.flatMap bucketLabels

theorem runSubs_items (cat : String) :
    ∀ (ss : List (String × Nat)) (parts : Requests) (L : Ledger)
      (rnd : List Nat),
      (runSubs cat ss parts L rnd).1.map Prod.fst =
        ss.flatMap (fun sm => sortItems (itemLabels sm.1 sm.2))
  | [], parts, L, rnd => by simp [runSubs]
  | (sub, m) :: rest, parts, L, rnd => by
    simp only [runSubs, List.map_append, List.flatMap_cons,
      subCategory_items, runSubs_items cat rest]

theorem runConfig_items :
    ∀ (config : Config) (parts : Requests) (L : Ledger) (ic : ICount)
      (rnd : List Nat),
      (runConfig config parts L ic rnd).1.map Prod.fst = allLabels config
  | [], parts, L, ic, rnd => by simp [runConfig, allLabels]
  | (cat, Limit.flat n) :: rest, parts, L, ic, rnd => by
    simp only [runConfig, List.map_append, flatCategory_items,
      runConfig_items rest, allLabels, List.flatMap_cons, bucketLabels]
  | (cat, Limit.subs ss) :: rest, parts, L, ic, rnd => by
    simp only [runConfig, List.map_append, runSubs_items,
      runConfig_items rest, allLabels, List.flatMap_cons, bucketLabels]

theorem runSubs_winners (cat : String) :
    ∀ (ss : List (String × Nat)) (parts : Requests) (L : Ledger)
      (rnd : List Nat),
      ∀ rec ∈ (runSubs cat ss parts L rnd).1,
        rec.2 = fcfs ∨ rec.2 ∈ parts.map Prod.fst
  | [], parts, L, rnd => by simp [runSubs]
  | (sub, m) :: rest, parts, L, rnd => by
    simp only [runSubs]
    intro rec hrec
    rcases List.mem_append.mp hrec with h1 | h2
    · rcases subCategory_winners sub m _ L rnd rec h1 with hf | hm
      · exact Or.inl hf
      · exact Or.inr (subReqs_fst_sub parts cat _ hm)
    · exact runSubs_winners cat rest parts _ _ rec h2

theorem runConfig_winners :
    ∀ (config : Config) (parts : Requests) (L : Ledger) (ic : ICount)
      (rnd : List Nat),
      ∀ rec ∈ (runConfig config parts L ic rnd).1,
        rec.2 = fcfs ∨ rec.2 ∈ parts.map Prod.fst
  | [], parts, L, ic, rnd => by simp [runConfig]
  | (cat, Limit.flat n) :: rest, parts, L, ic, rnd => by
    simp only [runConfig]
    intro rec hrec
    rcases List.mem_append.mp hrec with h1 | h2
    · rcases flatCategory_winners cat n _ L ic rnd rec h1 with hf | hm
      · exact Or.inl hf
      · exact Or.inr (flatReqs_fst_sub parts cat _ hm)
    · exact runConfig_winners rest parts _ _ _ rec h2
  | (cat, Limit.subs ss) :: rest, parts, L, ic, rnd => by
    simp only [runConfig]
    intro rec hrec
    rcases List.mem_append.mp hrec with h1 | h2
    · exact runSubs_winners cat ss parts L rnd rec h1
    · exact runConfig_winners rest parts _ _ _ rec h2

/-- C2: the allocation covers every configured bucket exactly — the
record labels, in order, are precisely the concatenation of each bucket's
sorted label block; each bucket of capacity `n` contributes exactly `n`
records, one per item label with multiplicity; and every record carries a
requesting participant's handle or the sentinel `"First Come, First
Serve"`. -/
theorem claim_C2 (config : Config) (parts : Requests) (L : Ledger)
    (rnd : List Nat) :
    ((distribute_items config parts L rnd).1.map Prod.fst = allLabels config) ∧
    (∀ rec ∈ (distribute_items config parts L rnd).1,
        rec.2 = fcfs ∨ rec.2 ∈ parts.map Prod.fst) ∧
    (∀ (b : String) (n : Nat),
        (sortItems (itemLabels b n)).length = n ∧
        ∀ lab, (sortItems (itemLabels b n)).count lab =
          (itemLabels b n).count lab) :=
  ⟨runConfig_items config parts L [] rnd,
    fun rec hrec => runConfig_winners config parts L [] rnd rec hrec,
    fun b n => ⟨sortItems_labels_length b n,
      fun lab => (sortItems_perm (itemLabels b n)).count_eq lab⟩⟩

unseal List.merge List.mergeSort in
/-- Witness for C2: in a concrete run, a won record's winner is a
requesting participant. -/
theorem claim_C2_witness :
    ("S #1", "A").2 = fcfs ∨
      ("S #1", "A").2 ∈
        ([("A", [("S", Choice.num 1)])] : Requests).map Prod.fst :=
  (claim_C2 [("S", Limit.flat 2)] [("A", [("S", Choice.num 1)])] [] []).2.1
    ("S #1", "A") (by decide)

/-! ## Claim C5: the 3-item scenario -/

theorem secondPass_one (cat : String) (avg : ℚ) (item p : String)
    (L : Ledger) (ic : ICount) (rnd : List Nat) :
    secondPass cat avg [item] [p] L ic rnd =
      ([(item, p)], [], ledgerBump L cat p, icBump ic p, rnd.tail,
        [[(p, ledgerGet L cat p, decide ((ledgerGet L cat p : ℚ) < avg))]]) := by
  simp [secondPass, Nat.mod_one]

unseal List.merge List.mergeSort in
/-- C5: with capacity 3, A requesting 2 and B requesting 1 on an empty
ledger, every draw sequence (and either processing order of the two
requesters) gives A exactly 2 items, B exactly 1, and leaves nothing
unclaimed. -/
theorem claim_C5 (rnd : List Nat) :
    (winsFor (flatCategory "C" 3 [("A", 2), ("B", 1)] [] [] rnd).1 "A" = 2 ∧
      winsFor (flatCategory "C" 3 [("A", 2), ("B", 1)] [] [] rnd).1 "B" = 1 ∧
      winsFor (flatCategory "C" 3 [("A", 2), ("B", 1)] [] [] rnd).1 fcfs = 0) ∧
    (winsFor (flatCategory "C" 3 [("B", 1), ("A", 2)] [] [] rnd).1 "A" = 2 ∧
      winsFor (flatCategory "C" 3 [("B", 1), ("A", 2)] [] [] rnd).1 "B" = 1 ∧
      winsFor (flatCategory "C" 3 [("B", 1), ("A", 2)] [] [] rnd).1 fcfs = 0) := by
  have e0 : (flatCategory "C" 3 [("A", 2), ("B", 1)] [] [] rnd).1 =
      [("C #1", "A"), ("C #2", "B")] ++
        (secondPass "C" (avgWinnings [("C", "A", 1), ("C", "B", 1)] "C")
          ["C #3"] ["A"] [("C", "A", 1), ("C", "B", 1)]
          [("A", 1), ("B", 1)] rnd).1 ++
        (secondPass "C" (avgWinnings [("C", "A", 1), ("C", "B", 1)] "C")
          ["C #3"] ["A"] [("C", "A", 1), ("C", "B", 1)]
          [("A", 1), ("B", 1)] rnd).2.1.map (fun it => (it, fcfs)) := rfl
  have e1 : (flatCategory "C" 3 [("B", 1), ("A", 2)] [] [] rnd).1 =
      [("C #1", "B"), ("C #2", "A")] ++
        (secondPass "C" (avgWinnings [("C", "B", 1), ("C", "A", 1)] "C")
          ["C #3"] ["A"] [("C", "B", 1), ("C", "A", 1)]
          [("B", 1), ("A", 1)] rnd).1 ++
        (secondPass "C" (avgWinnings [("C", "B", 1), ("C", "A", 1)] "C")
          ["C #3"] ["A"] [("C", "B", 1), ("C", "A", 1)]
          [("B", 1), ("A", 1)] rnd).2.1.map (fun it => (it, fcfs)) := rfl
  rw [secondPass_one] at e0 e1
  simp only [List.map_nil, List.append_nil] at e0 e1
  rw [e0, e1]
  refine ⟨⟨?_, ?_, ?_⟩, ?_, ?_, ?_⟩ <;> decide

/-! ## Claim C6: buckets with no demand -/

theorem countMatches_eq_zero (sub : String) (its : List String)
    (h : sub ∉ its) : countMatches sub its = 0 := by
  rw [countMatches, List.length_eq_zero, List.filter_eq_nil_iff]
  intro x hx
  simp only [decide_eq_true_eq]
  intro he
  exact h (he ▸ hx)

theorem subPass_inactive (sub : String) (avg : ℚ) (items : List String)
    (pool : List (String × Nat)) (L : Ledger) (rnd : List Nat)
    (h : activeIdx pool = []) :
    subPass sub avg items pool L rnd = ([], items, L, rnd, []) := by
  cases items with
  | nil => simp [subPass]
  | cons it rest => simp [subPass, h]

theorem activeIdx_nil_of (pool : List (String × Nat))
    (h : ∀ q ∈ pool, q.2 = 0) : activeIdx pool = [] := by
  rw [activeIdx, List.filter_eq_nil_iff]
  intro i hi
  have hlt : i < pool.length := List.mem_range.mp hi
  simp only [decide_eq_true_eq]
  rw [List.getD_eq_getElem?_getD, List.getElem?_eq_getElem hlt]
  have h2 := h (pool[i]) (List.getElem_mem hlt)
  simp only [Option.getD_some]
  omega

theorem flatEligible_nil_of_zero (reqs : List (String × Nat))
    (h : ∀ pq ∈ reqs, pq.2 = 0) : flatEligible reqs = [] := by
  rw [flatEligible, List.map_eq_nil_iff, List.filter_eq_nil_iff]
  intro pq hpq
  simp only [decide_eq_true_eq]
  have := h pq hpq
  omega

theorem flatPool_nil_of_zero (reqs : List (String × Nat)) (ic : ICount)
    (h : ∀ pq ∈ reqs, pq.2 = 0) : flatPool reqs ic = [] := by
  rw [flatPool, List.map_eq_nil_iff, List.filter_eq_nil_iff]
  intro pq hpq
  simp only [Bool.and_eq_true, decide_eq_true_eq, not_and]
  intro h2
  have := h pq hpq
  omega

theorem secondPass_nil_pool (cat : String) (avg : ℚ) (items : List String)
    (L : Ledger) (ic : ICount) (rnd : List Nat) :
    secondPass cat avg items [] L ic rnd = ([], items, L, ic, rnd, []) := by
  cases items <;> simp [secondPass]

/-- C6: a bucket with zero requesters yields only unclaimed records and
the run continues normally.  A flat category counts as having zero
requesters both when no participant holds the category key and when all
key-holders requested quantity 0 (the pass filters `>= 1` and `== 2`
are then empty); a subcategory counts when no parent-category
participant listed it: in all cases every record carries the sentinel
and ledger, item counts and the oracle are untouched. -/
theorem claim_C6 :
    (∀ (cat : String) (limit : Nat) (reqs : List (String × Nat)) (L : Ledger)
        (ic : ICount) (rnd : List Nat), (∀ pq ∈ reqs, pq.2 = 0) →
        flatCategory cat limit reqs L ic rnd =
          ((sortItems (itemLabels cat limit)).map (fun it => (it, fcfs)),
            L, ic, rnd, [])) ∧
    (∀ (sub : String) (limit : Nat) (reqs : List (String × List String))
        (L : Ledger) (rnd : List Nat), (∀ pr ∈ reqs, sub ∉ pr.2) →
        (subCategory sub limit reqs L rnd).1 =
          (sortItems (itemLabels sub limit)).map (fun it => (it, fcfs)) ∧
        (subCategory sub limit reqs L rnd).2.1 = L) := by
  constructor
  · intro cat limit reqs L ic rnd hz
    by_cases hne : reqs = []
    · simp [flatCategory, hne]
    · simp only [flatCategory, if_neg hne, flatEligible_nil_of_zero reqs hz,
        firstPass]
      rw [flatPool_nil_of_zero reqs ic hz, secondPass_nil_pool]
      simp
  intro sub limit reqs L rnd hno
  by_cases hne : reqs = []
  · simp [subCategory, hne]
  · have hz : ∀ q ∈ subPool sub reqs, q.2 = 0 := by
      intro q hq
      obtain ⟨pr, hpr, rfl⟩ := List.mem_map.mp hq
      simp [countMatches_eq_zero sub pr.2 (hno pr hpr)]
    have ha := activeIdx_nil_of _ hz
    constructor
    · simp only [subCategory, if_neg hne,
        subPass_inactive sub _ _ _ L rnd ha]
      simp
    · simp only [subCategory, if_neg hne,
        subPass_inactive sub _ _ _ L rnd ha]

unseal List.merge List.mergeSort in
/-- Witness for C6: a flat category whose sole key-holder requested
quantity 0, and the "Hero Selection card" subcategory with one parent
participant who requested only the Relic card. -/
theorem claim_C6_witness :
    (flatCategory "Insignias [Red]" 1 [("A", 0)] [] [] [] =
      ((sortItems (itemLabels "Insignias [Red]" 1)).map (fun it => (it, fcfs)),
        [], [], [], [])) ∧
    ((subCategory "Hero Selection card" 1 [("A", ["Relic Selection card"])]
        [] []).1 =
      (sortItems (itemLabels "Hero Selection card" 1)).map
        (fun it => (it, fcfs)) ∧
    (subCategory "Hero Selection card" 1 [("A", ["Relic Selection card"])]
        [] []).2.1 = []) :=
  ⟨claim_C6.1 "Insignias [Red]" 1 [("A", 0)] [] [] [] (by decide),
    claim_C6.2 "Hero Selection card" 1 [("A", ["Relic Selection card"])] [] []
      (by decide)⟩

/-! ## Claim C1: weight recomputation across draws -/

theorem one_add_log_pos (c : ℕ) : (0 : ℝ) < 1 + Real.log (1 + c) := by
  have h : (0 : ℝ) ≤ Real.log (1 + c) :=
    Real.log_nonneg (le_add_of_nonneg_right (Nat.cast_nonneg c))
  linarith

/-- Incrementing a candidate's ledger count strictly decreases their
weight, whatever happens to the below-average flag (it can only switch
from boosted to unboosted). -/
theorem drawWeight_succ_lt (c : ℕ) (b1 b0 : Bool)
    (himp : b1 = true → b0 = true) :
    drawWeight (c + 1) b1 < drawWeight c b0 := by
  have hA := one_add_log_pos c
  have hB := one_add_log_pos (c + 1)
  have hfrac : 1 / (1 + Real.log (1 + ((c + 1 : ℕ) : ℝ))) <
      1 / (1 + Real.log (1 + (c : ℝ))) := by
    apply one_div_lt_one_div_of_lt hA
    have hlog : Real.log (1 + (c : ℝ)) < Real.log (1 + ((c + 1 : ℕ) : ℝ)) := by
      apply Real.log_lt_log (by positivity)
      push_cast
      linarith
    linarith
  have hApos : (0 : ℝ) < 1 / (1 + Real.log (1 + (c : ℝ))) := by positivity
  cases b1 with
  | false =>
    cases b0 with
    | false => simpa [drawWeight] using hfrac
    | true =>
      simp only [drawWeight, if_neg (Bool.false_ne_true), if_pos rfl]
      calc 1 / (1 + Real.log (1 + ((c + 1 : ℕ) : ℝ))) * 1
          < 1 / (1 + Real.log (1 + (c : ℝ))) * 1 := by
            simpa using hfrac
        _ < 1 / (1 + Real.log (1 + (c : ℝ))) * (3 / 2) := by
            apply mul_lt_mul_of_pos_left (by norm_num) hApos
  | true =>
    have hb0 : b0 = true := himp rfl
    subst hb0
    simp only [drawWeight, if_pos rfl]
    apply mul_lt_mul_of_pos_right hfrac (by norm_num)

/-- The weight after one more win, with the flag recomputed against the
same fixed average, is strictly smaller. -/
theorem drawWeight_lt (c : ℕ) (avg : ℚ) :
    drawWeight (c + 1) (decide (((c + 1 : ℕ) : ℚ) < avg)) <
      drawWeight c (decide ((c : ℚ) < avg)) := by
  apply drawWeight_succ_lt
  intro h1
  rw [decide_eq_true_eq] at h1 ⊢
  push_cast at h1 ⊢
  linarith

/-- Flat second pass: every draw's recorded weight-input row is a sublist
of the pass-start row — the pool only shrinks, and a surviving
candidate's (count, flag) pair never changes, because each winner leaves
the pool immediately. -/
theorem secondPass_trace (cat : String) (avg : ℚ) :
    ∀ (items pool : List String) (L : Ledger) (ic : ICount) (rnd : List Nat),
      pool.Nodup → (∀ q ∈ pool, icGet ic q = 1) →
      ∀ row ∈ (secondPass cat avg items pool L ic rnd).2.2.2.2.2,
        row.Sublist (pool.map (fun p =>
          (p, ledgerGet L cat p, decide ((ledgerGet L cat p : ℚ) < avg))))
  | [], pool, L, ic, rnd, _, _ => by simp [secondPass]
  | item :: rest, pool, L, ic, rnd, hnd, hic => by
    by_cases hpl : pool = []
    · simp [secondPass, hpl]
    · have hw : pool.getD (rnd.headD 0 % pool.length) "" ∈ pool :=
        getD_mod_mem pool "" _ hpl
      have hbump : icGet (icBump ic (pool.getD (rnd.headD 0 % pool.length) ""))
          (pool.getD (rnd.headD 0 % pool.length) "") = 2 := by
        rw [icGet_bump_self, hic _ hw]
      simp only [secondPass, if_neg hpl, hbump, if_pos, List.mem_cons]
      rintro row (rfl | hrow)
      · exact List.Sublist.refl _
      · have hrec := secondPass_trace cat avg rest
          (pool.erase (pool.getD (rnd.headD 0 % pool.length) ""))
          (ledgerBump L cat (pool.getD (rnd.headD 0 % pool.length) ""))
          (icBump ic (pool.getD (rnd.headD 0 % pool.length) ""))
          rnd.tail (hnd.erase _)
          (fun q hq => by
            have hqw := (hnd.mem_erase_iff.mp hq).1
            rw [icGet_bump_ne q _ (fun he => hqw he.symm)]
            exact hic q (hnd.mem_erase_iff.mp hq).2)
          row hrow
        have hcongr :
            (pool.erase (pool.getD (rnd.headD 0 % pool.length) "")).map
              (fun p => (p, ledgerGet (ledgerBump L cat
                  (pool.getD (rnd.headD 0 % pool.length) "")) cat p,
                decide ((ledgerGet (ledgerBump L cat
                  (pool.getD (rnd.headD 0 % pool.length) "")) cat p : ℚ) < avg))) =
            (pool.erase (pool.getD (rnd.headD 0 % pool.length) "")).map
              (fun p => (p, ledgerGet L cat p,
                decide ((ledgerGet L cat p : ℚ) < avg))) := by
          apply List.map_congr_left
          intro q hq
          have hqw := (hnd.mem_erase_iff.mp hq).1
          rw [ledgerGet_bump_ne cat q cat _ (fun hc => hqw hc.2.symm)]
        rw [hcongr] at hrec
        exact hrec.trans ((List.erase_sublist _ pool).map _)

unseal List.merge List.mergeSort in
/-- Counterexample to C1: in the subcategory "S" of capacity 2 whose only
requester X asks for two copies, the recorded weight inputs of the two
successive draws differ — draw 1 sees X with ledger count 0, draw 2 sees
X with ledger count 1 — and the corresponding weight vectors are not
equal, so the weights are not fixed across the draws of one loop. -/
theorem claim_C1_cex :
    (subCategory "S" 2 [("X", ["S", "S"])] [] []).2.2.2 =
      [[("X", 0, false)], [("X", 1, false)]] ∧
    rowWeights [("X", 1, false)] ≠ rowWeights [("X", 0, false)] := by
  constructor
  · decide
  · have hlt := drawWeight_succ_lt 0 false false (fun h => h)
    simp only [rowWeights, List.map_cons, List.map_nil, ne_eq,
      List.cons.injEq, and_true]
    exact fun h => absurd h (ne_of_lt hlt)

/-- C1 (amended): the average baseline is fixed once per pass, but the
weights are recomputed at every draw from the current ledger.  In the
flat second pass this recomputation is invisible: each draw's weight
inputs are a sublist of the pass-start inputs (winners leave the pool at
once, so surviving candidates keep their weights and only the pool
shrinks).  In a subcategory loop a winner can stay active, and their
recomputed weight at the next draw is strictly smaller than the weight
just used, the below-average flag being re-evaluated against the same
fixed average. -/
theorem claim_C1_amended :
    (∀ (cat : String) (avg : ℚ) (items pool : List String) (L : Ledger)
        (ic : ICount) (rnd : List Nat),
        pool.Nodup → (∀ q ∈ pool, icGet ic q = 1) →
        ∀ row ∈ (secondPass cat avg items pool L ic rnd).2.2.2.2.2,
          row.Sublist (pool.map (fun p =>
            (p, ledgerGet L cat p, decide ((ledgerGet L cat p : ℚ) < avg))))) ∧
    (∀ (L : Ledger) (sub w : String) (avg : ℚ),
        drawWeight (ledgerGet (ledgerBump L sub w) sub w)
            (decide ((ledgerGet (ledgerBump L sub w) sub w : ℚ) < avg)) <
          drawWeight (ledgerGet L sub w)
            (decide ((ledgerGet L sub w : ℚ) < avg))) := by
  refine ⟨fun cat avg items pool L ic rnd hnd hic =>
    secondPass_trace cat avg items pool L ic rnd hnd hic, ?_⟩
  intro L sub w avg
  rw [ledgerGet_bump_self]
  exact drawWeight_lt (ledgerGet L sub w) avg

/-- Witness for C1 (amended) at a concrete flat second pass. -/
theorem claim_C1_amended_witness :
    ∀ row ∈ (secondPass "C" 0 ["i1"] ["A"] [] [("A", 1)] []).2.2.2.2.2,
      row.Sublist (["A"].map (fun p =>
        (p, ledgerGet [] "C" p, decide ((ledgerGet [] "C" p : ℚ) < 0)))) :=
  claim_C1_amended.1 "C" 0 ["i1"] ["A"] [] [("A", 1)] [] (by decide)
    (by decide)

end Raffle
